import Mathlib

/-!
Verification development for the copilot-anywhere VS Code extension.

The definitions below are a shallow embedding of the TypeScript sources:
  * `AgentTools` (tool engine: isAllowed, execute, requestApproval, buildUnifiedDiff)
  * `AgentController.run` (planning/execution loop)
  * `MessageBus` (publish/subscribe delivery loops)
  * `ExternalServer` bus handlers (session/approval router)
Filesystem and process effects are modelled by explicit state passing: the
filesystem is an association list from relative path to content, process
spawns and file reads are recorded in effect logs, and the interactive
oracles (approval decisions, quick picks, command outcomes) are supplied as
functions consumed by index.
-/

namespace CopilotAnywhere

/-! ### Tool engine data model (agentTools: ToolAction / ToolResult) -/

/-- Tagged union of tool actions, mirroring the `ToolAction` TS union.
`unknownTool` covers the unvalidated runtime case handled by the final
`else` branch of `execute` (the controller passes parsed JSON through
without schema validation, so any tool string can reach `execute`). -/
inductive ToolAction where
  | readFiles (files : List String)
  | editFile (path : String) (content : Option String)
  | createFile (path : String) (content : String)
  | listFiles (glob : Option String) (maxCount : Option Int)
  | runCommand (command : String) (cwd : Option String) (timeoutMs : Option Int)
  | unknownTool (tool : String)
deriving DecidableEq, Repr

/-- Per-file outcome inside a `readFiles` detail: `{path, content}` or `{path, error}`. -/
inductive FileRead where
  | ok (path content : String)
  | err (path msg : String)
deriving DecidableEq, Repr

/-- Detail payload of a successful `runCommand` result. -/
structure RunDetail where
  command : String
  cwd : String
  code : Int
  signal : Option String
  stdout : String
  stderr : String
  timedOut : Bool
deriving DecidableEq, Repr

/-- The `detail` field of a ToolResult, one shape per tool. -/
inductive Detail where
  | files (entries : List FileRead)
  | listing (files : List String) (truncated : Bool)
  | created (path : String)
  | edited (path : String)
  | ran (d : RunDetail)
deriving DecidableEq, Repr

/-- Mirror of the TS `ToolResult {tool, success, detail?, error?}`. -/
structure ToolResult where
  tool : String
  success : Bool
  detail : Option Detail := none
  error : Option String := none
deriving DecidableEq, Repr

/-- Mirror of `AgentToolsOptions` (workspaceRoot only prefixes absolute
paths, so paths are kept relative here; `hasBus` models the optional
`bus` field being present). -/
structure AgentToolsOptions where
  allowedRoots : List String
  requireApproval : Bool
  hasBus : Bool
deriving Repr

/-- Outcome of one `exec` callback `(error, stdout, stderr)`:
`errCode` is `error?.code`, `killed`/`signal` come from the error object. -/
structure CmdOutcome where
  errCode : Option Int
  signal : Option String
  killed : Bool
  stdout : String
  stderr : String
deriving Repr

/-- External nondeterminism, resolved by index: bus approval decisions
(including the 2-minute timeout, which yields `false`), QuickPick choices
for `runCommand`, and spawned-command outcomes. -/
structure Oracles where
  approve : Nat → Bool
  quickPick : Nat → Bool
  cmdOutcome : Nat → CmdOutcome

/-- World state threaded through the tool engine: the filesystem (relative
path to content), plus effect logs of content reads and process spawns
(command, cwd, timeoutMs), and the oracle cursors. -/
structure ToolState where
  fs : List (String × String)
  reads : List String
  spawned : List (String × String × Int)
  approvalsAsked : Nat
  quickPicksAsked : Nat
deriving Repr

/-- Character-list rendering of `String.startsWith` (kept executable down
to the kernel). -/
def strStartsWith (s pre : String) : Bool := pre.data.isPrefixOf s.data

/-- Character-list rendering of `String.endsWith`. -/
def strEndsWith (s suf : String) : Bool := suf.data.isSuffixOf s.data

/-- `AgentTools.isAllowed`: `"*"` permits everything, otherwise some root
must equal the path, or be a prefix of it (with an explicit or implicit
trailing slash). -/
def isAllowed (allowedRoots : List String) (rel : String) : Bool :=
  allowedRoots.contains "*" ||
  allowedRoots.any (fun root =>
    root == rel || (strEndsWith root "/" && strStartsWith rel root) ||
    rel == root || strStartsWith rel (root ++ "/"))

/-- Backslash-to-slash normalization `replace(/\\/g, '/')` applied to
`runCommand.cwd` and to the allowed roots in `listFiles`. -/
def normalizeSlashes (s : String) : String :=
  String.mk (s.data.map (fun c => if c = '\\' then '/' else c))

/-- The cwd actually used by `runCommand`:
`act.cwd?.replace(/\\/g, '/')`, with both an absent and an empty cwd
collapsing to `''` (the workspace root). -/
def relCwdOf : Option String → String
  | some c => normalizeSlashes c
  | none => ""

/-- Effective command timeout:
`act.timeoutMs && act.timeoutMs > 0 ? Math.min(act.timeoutMs, 20000) : 8000`
(note `0` is falsy in JS, so `0` and negative values both fall to the
8000 default). -/
def effTimeout : Option Int → Int
  | some v => if 0 < v then min v 20000 else 8000
  | none => 8000

/-- Effective `listFiles` cap:
`act.max && act.max > 0 ? Math.min(act.max, 500) : 200`. -/
def effListMax : Option Int → Nat
  | some v => if 0 < v then (min v 500).toNat else 200
  | none => 200

/-- Output truncation used on stdout (8000) and stderr (4000). -/
def truncOut (lim : Nat) (s : String) : String :=
  if lim < s.length then s.take lim ++ "...[truncated]" else s

/-- `AgentTools.requestApproval` as seen by one action: without
`requireApproval` it is immediately `true`; with approval required but no
bus it returns `true` (the QuickPick fallback is never set); otherwise the
pending approval is resolved by the next bus decision or its timeout,
modelled by the `approve` oracle. -/
def requestApproval (opts : AgentToolsOptions) (orc : Oracles) (s : ToolState) :
    Bool × ToolState :=
  if !opts.requireApproval then (true, s)
  else if !opts.hasBus then (true, s)
  else (orc.approve s.approvalsAsked, { s with approvalsAsked := s.approvalsAsked + 1 })

/-- Association-list update with JS `Map.set` semantics (replace in place,
else append). -/
def setAssoc {α : Type} (m : List (String × α)) (k : String) (v : α) :
    List (String × α) :=
  if (List.lookup k m).isSome then
    m.map (fun e => if e.1 == k then (k, v) else e)
  else m ++ [(k, v)]

/-- Association-list removal (`Map.delete`). -/
def eraseAssoc {α : Type} (m : List (String × α)) (k : String) :
    List (String × α) :=
  m.filter (fun e => e.1 ≠ k)

/-- Filesystem write (`fs.promises.writeFile`, creating or replacing). -/
def fsSet (fs : List (String × String)) (p c : String) : List (String × String) :=
  setAssoc fs p c

/-- The per-file loop body of the `readFiles` branch of `execute`:
produces one entry per requested file and logs the paths whose contents
were actually read. -/
def readEach (roots : List String) (fs : List (String × String)) :
    List String → List FileRead × List String
  | [] => ([], [])
  | f :: rest =>
    let t := readEach roots fs rest
    if !(isAllowed roots f) then (FileRead.err f "Not allowed" :: t.1, t.2)
    else match List.lookup f fs with
      | none => (FileRead.err f "Not found" :: t.1, t.2)
      | some c => (FileRead.ok f c :: t.1, f :: t.2)

/-- Expected per-file outcome (what `readEach` yields for one file). -/
def readOutcome (roots : List String) (fs : List (String × String)) (f : String) :
    FileRead :=
  if !(isAllowed roots f) then FileRead.err f "Not allowed"
  else match List.lookup f fs with
    | none => FileRead.err f "Not found"
    | some c => FileRead.ok f c

/-- Substring test used for the `listFiles` glob (case-insensitive
`includes`). -/
def containsSub (hay needle : String) : Bool :=
  needle == "" || (hay.splitOn needle).length != 1

/-- One iteration of the `for (const a of actions)` loop body of
`AgentTools.execute`, including the surrounding try/catch: every `throw`
site becomes a failure result carrying the exception message, with the
state as of the throw.  The `listFiles` directory recursion is modelled as
an enumeration of the store's paths (the walk visits every file under the
allowed roots, filters by `isAllowed` and the lowercased substring glob,
and stops at the cap). -/
def execOne (opts : AgentToolsOptions) (orc : Oracles) (a : ToolAction)
    (s : ToolState) : ToolResult × ToolState :=
  match a with
  | .readFiles files =>
    let t := readEach opts.allowedRoots s.fs files
    ({ tool := "readFiles", success := true, detail := some (.files t.1) },
     { s with reads := s.reads ++ t.2 })
  | .listFiles glob maxCount =>
    let cap := effListMax maxCount
    let collected := ((s.fs.map Prod.fst).filter (fun p =>
      isAllowed opts.allowedRoots p &&
      (match glob with
       | none => true
       | some g => containsSub p.toLower g.toLower))).take cap
    ({ tool := "listFiles", success := true,
       detail := some (.listing collected (decide (cap ≤ collected.length))) }, s)
  | .createFile p content =>
    if !(isAllowed opts.allowedRoots p) then
      ({ tool := "createFile", success := false, error := some "Not allowed" }, s)
    else if (List.lookup p s.fs).isSome then
      ({ tool := "createFile", success := false, error := some "File exists" }, s)
    else
      let ap := requestApproval opts orc s
      if !ap.1 then
        ({ tool := "createFile", success := false,
           error := some "User rejected create" }, ap.2)
      else
        ({ tool := "createFile", success := true, detail := some (.created p) },
         { ap.2 with fs := fsSet ap.2.fs p content })
  | .editFile p content =>
    if !(isAllowed opts.allowedRoots p) then
      ({ tool := "editFile", success := false, error := some "Not allowed" }, s)
    else
      match List.lookup p s.fs with
      | none =>
        ({ tool := "editFile", success := false, error := some "File missing" }, s)
      | some _existing =>
        match content with
        | some c =>
          if c = "" then
            ({ tool := "editFile", success := false,
               error := some "No content field (diff parsing not implemented yet)" }, s)
          else
            let s0 := { s with reads := s.reads ++ [p] }
            let ap := requestApproval opts orc s0
            if !ap.1 then
              ({ tool := "editFile", success := false,
                 error := some "User rejected edit" }, ap.2)
            else
              ({ tool := "editFile", success := true, detail := some (.edited p) },
               { ap.2 with fs := fsSet ap.2.fs p c })
        | none =>
          ({ tool := "editFile", success := false,
             error := some "No content field (diff parsing not implemented yet)" }, s)
  | .runCommand cmd cwd timeoutMs =>
    if cmd = "" then
      ({ tool := "runCommand", success := false, error := some "Missing command" }, s)
    else
      let relCwd := relCwdOf cwd
      if relCwd ≠ "" && !(isAllowed opts.allowedRoots relCwd) then
        ({ tool := "runCommand", success := false, error := some "cwd not allowed" }, s)
      else
        let t := effTimeout timeoutMs
        let gate : Bool × ToolState :=
          if opts.requireApproval then
            (orc.quickPick s.quickPicksAsked,
             { s with quickPicksAsked := s.quickPicksAsked + 1 })
          else (true, s)
        if !gate.1 then
          ({ tool := "runCommand", success := false,
             error := some "User rejected command" }, gate.2)
        else
          let o := orc.cmdOutcome gate.2.spawned.length
          let d : RunDetail :=
            { command := cmd
              cwd := if relCwd = "" then "." else relCwd
              code := o.errCode.getD 0
              signal := o.signal
              stdout := truncOut 8000 o.stdout
              stderr := truncOut 4000 o.stderr
              timedOut := o.killed && o.signal == some "SIGTERM" }
          ({ tool := "runCommand", success := true, detail := some (.ran d) },
           { gate.2 with spawned := gate.2.spawned ++ [(cmd, relCwd, t)] })
  | .unknownTool t =>
    ({ tool := if t = "" then "unknown" else t, success := false,
       error := some "Unknown tool" }, s)

/-- `AgentTools.execute`: sequential fold over the action batch, one
result per action, individual failures captured in place. -/
def execute (opts : AgentToolsOptions) (orc : Oracles) :
    List ToolAction → ToolState → List ToolResult × ToolState
  | [], s => ([], s)
  | a :: rest, s =>
    let r := execOne opts orc a s
    let t := execute opts orc rest r.2
    (r.1 :: t.1, t.2)

/-- The `tool` field `execute` reports for a given action (`a.tool`
everywhere, with the `anyAction.tool || 'unknown'` fallback in the unknown
branch). -/
def expectedTool : ToolAction → String
  | .readFiles _ => "readFiles"
  | .editFile _ _ => "editFile"
  | .createFile _ _ => "createFile"
  | .listFiles _ _ => "listFiles"
  | .runCommand _ _ _ => "runCommand"
  | .unknownTool t => if t = "" then "unknown" else t

/-! ### Agent controller (agentController.ts, `AgentController.run`) -/

/-- Line splitting `split(/\r?\n/)`: split on newline, stripping a
carriage return left at the end of each piece that was followed by a
newline. -/
def splitLines (s : String) : List String :=
  let parts := s.splitOn "\n"
  (parts.dropLast.map (fun l => if l.endsWith "\r" then l.dropRight 1 else l))
    ++ parts.drop (parts.length - 1)

/-- Result of one provider interaction, after JSON candidate extraction
and parsing: no chat model was available, no candidate parsed, a final
`{done: true}` object, or a plan `{commentary, actions}`. -/
inductive PlanStep where
  | noModel
  | unparseable
  | finalDone
  | plan (commentary : String) (actions : List ToolAction)

/-- Which emission of the loop a fragment is (contents as in the source;
only the shape and the `done` flag matter to the stated properties). -/
inductive FragKind where
  | spacer | noModelMsg | parseNote | commentary | actionSummary
  | runLine | stdoutLine | stderrLine | resultsSummary
  | finalSummary | abortMsg | maxStepsMsg
deriving DecidableEq, Repr

/-- One outbound emission of the run: its kind and its `done` flag. -/
structure Frag where
  kind : FragKind
  done : Bool
deriving DecidableEq, Repr

/-- Condition guarding the `[stdout]`/`[stderr]` echo fragments: the first
`n` lines, joined, are non-blank. -/
def firstLinesNonempty (s : String) (n : Nat) : Bool :=
  (String.intercalate "\n" ((splitLines s).take n)).trim ≠ ""

/-- Which of the `runCommand` echo emissions fire for one result. -/
def runCmdFragKinds (r : ToolResult) : List FragKind :=
  match r.detail with
  | some (.ran d) =>
    if r.tool == "runCommand" && r.success then
      FragKind.runLine ::
      ((if d.stdout ≠ "" && firstLinesNonempty d.stdout 6 then
          [FragKind.stdoutLine] else []) ++
       (if d.stderr ≠ "" && firstLinesNonempty d.stderr 4 then
          [FragKind.stderrLine] else []))
    else []
  | _ => []

/-- The per-result `runCommand` echo fragments emitted between the action
summary and the results summary (all with `done` absent, i.e. `false`). -/
def runCmdFrags (rs : List ToolResult) : List Frag :=
  (rs.flatMap runCmdFragKinds).map (fun k => Frag.mk k false)

/-- Result of an `AgentController.run` modelled on a finite provider
script: the outbound fragments for the run's correlation id in emission
order, whether the run terminated (`false` means the script ended while
the loop still wanted another provider interaction), the number of
provider interactions consumed, and the final tool-engine state. -/
structure RunOut where
  frags : List Frag
  terminated : Bool
  consumed : Nat
  finalState : ToolState
deriving Repr

/-- The body of `AgentController.run`: the `for (let step = 0; ...)` loop
with its `step--` retry paths (parse failure, tolerated empty-action
steps) modelled by recursing with the same step index, the
consecutive-empty counter `emptyActionRetries`, and the terminal emission
paths (no model, final summary, repeated-empty abort, max steps). -/
def runLoop (opts : AgentToolsOptions) (orc : Oracles) (maxSteps : Nat) :
    Nat → Nat → List PlanStep → ToolState → RunOut
  | step, retries, script, ts =>
    if maxSteps ≤ step then ⟨[⟨.maxStepsMsg, true⟩], true, 0, ts⟩
    else
      match script with
      | [] => ⟨[], false, 0, ts⟩
      | p :: rest =>
        let spacer : List Frag := if 0 < step then [⟨.spacer, false⟩] else []
        match p with
        | .noModel => ⟨spacer ++ [⟨.noModelMsg, true⟩], true, 1, ts⟩
        | .unparseable =>
          let t := runLoop opts orc maxSteps step retries rest ts
          ⟨spacer ++ [⟨.parseNote, false⟩] ++ t.frags, t.terminated,
           t.consumed + 1, t.finalState⟩
        | .finalDone => ⟨spacer ++ [⟨.finalSummary, true⟩], true, 1, ts⟩
        | .plan commentary actions =>
          let cfr : List Frag := if commentary ≠ "" then [⟨.commentary, false⟩] else []
          if actions.isEmpty then
            if 2 < retries + 1 then
              ⟨spacer ++ cfr ++ [⟨.abortMsg, true⟩], true, 1, ts⟩
            else
              let t := runLoop opts orc maxSteps step (retries + 1) rest ts
              ⟨spacer ++ cfr ++ t.frags, t.terminated, t.consumed + 1, t.finalState⟩
          else
            let ex := execute opts orc actions ts
            let t := runLoop opts orc maxSteps (step + 1) 0 rest ex.2
            ⟨spacer ++ cfr ++ [⟨.actionSummary, false⟩] ++ runCmdFrags ex.1
               ++ [⟨.resultsSummary, false⟩] ++ t.frags,
             t.terminated, t.consumed + 1, t.finalState⟩

/-- `AgentController.run`: the loop from step 0 with a fresh
consecutive-empty counter. -/
def runAgent (opts : AgentToolsOptions) (orc : Oracles) (maxSteps : Nat)
    (script : List PlanStep) (ts : ToolState) : RunOut :=
  runLoop opts orc maxSteps 0 0 script ts

/-! ### Message bus delivery (messageBus.ts)

All four emit methods are the same loop `for (const l of listeners) l(x)`
over the listener set in registration order, with no exception handling.
A listener is abstracted to whether it throws on this event. -/

/-- Delivery of one event to the registered listeners, in order: returns
how many listeners were invoked and whether the publisher observes an
exception.  A `true` entry (a listener that throws) ends the loop. -/
def emitToListeners : List Bool → Nat × Bool
  | [] => (0, false)
  | b :: rest =>
    if b then (1, true)
    else
      let t := emitToListeners rest
      (t.1 + 1, t.2)

/-! ### Approval lifecycle (agentTools `requestApproval` / `pendingApprovals`)

`pendingApprovals` maps approval id to a promise resolver.  The decision
listener resolves and deletes the entry when a matching decision arrives
and the entry is still present; the 2-minute timer resolves `false` and
deletes the entry if still present.  Resolved outcomes are recorded
append-only (a JS promise keeps its first resolution). -/

/-- Events that can touch a pending approval. -/
inductive ApprEvent where
  | decision (id : String) (approved : Bool)
  | timeout (id : String)
deriving DecidableEq, Repr

/-- Approval bookkeeping: the ids still pending, and the recorded
first-resolution outcomes. -/
structure ApprovalState where
  pending : List String
  outcome : List (String × Bool)
deriving DecidableEq, Repr

/-- Effect of one event: a matching decision or timeout resolves the
pending entry (recording the outcome) and deletes it; otherwise nothing
happens. -/
def stepApproval (s : ApprovalState) : ApprEvent → ApprovalState
  | .decision id ap =>
    if id ∈ s.pending then
      { pending := s.pending.erase id, outcome := s.outcome ++ [(id, ap)] }
    else s
  | .timeout id =>
    if id ∈ s.pending then
      { pending := s.pending.erase id, outcome := s.outcome ++ [(id, false)] }
    else s

/-- Processing a whole event trace. -/
def runApproval (s : ApprovalState) (evs : List ApprEvent) : ApprovalState :=
  evs.foldl stepApproval s

/-- The outcome the first matching event in a trace would assign to `id`. -/
def firstResolution (id : String) : List ApprEvent → Option Bool
  | [] => none
  | .decision i ap :: rest => if i = id then some ap else firstResolution id rest
  | .timeout i :: rest => if i = id then some false else firstResolution id rest

/-- How many resolutions a trace recorded for `id`. -/
def outcomeCount (id : String) (s : ApprovalState) : Nat :=
  (s.outcome.filter (fun e => e.1 = id)).length

/-! ### Session/approval router (externalServer.ts bus handlers) -/

/-- One entry of a session's ordered log (direction is encoded by the
constructor; persistence timestamps elided). -/
inductive LogEntry where
  | inboundMsg (id text : String)
  | outboundMsg (id fragment : String) (modelName : Option String)
      (done : Bool) (aggregated : Bool)
deriving DecidableEq, Repr

/-- The id a log entry carries (`m.id`). -/
def LogEntry.entryId : LogEntry → String
  | .inboundMsg i _ => i
  | .outboundMsg i _ _ _ _ => i

/-- Mirror of the TS `OutboundFragment` (absent `done` is `false`). -/
structure OutboundFragment where
  id : String
  fragment : String
  done : Bool := false
  modelName : Option String := none
deriving DecidableEq, Repr

/-- Mirror of the TS `InboundMessage` (text/source fields beyond the id
and session are kept as the text). -/
structure InboundMessage where
  id : String
  text : String
  sessionId : Option String := none
deriving DecidableEq, Repr

/-- A pending outbound buffer `{fragments, model?, done?}`. -/
structure PendingBuf where
  fragments : List String
  modelName : Option String
  done : Bool
deriving DecidableEq, Repr

/-- Router state: session logs, the correlation-id index, and the
out-of-order outbound buffers (SSE broadcast and persistence elided). -/
structure ServerState where
  sessions : List (String × List LogEntry)
  messageSessionIndex : List (String × String)
  pendingOutboundBuffers : List (String × PendingBuf)
deriving DecidableEq, Repr

/-- Session resolution for an outbound fragment: the correlation index,
then a scan of session logs for a message with the fragment's id, then
the unique session when exactly one exists; the two fallback hits also
record the mapping. -/
def resolveSession (s : ServerState) (fid : String) : Option String × ServerState :=
  match List.lookup fid s.messageSessionIndex with
  | some sid => (some sid, s)
  | none =>
    match s.sessions.find? (fun e => e.2.any (fun m => m.entryId == fid)) with
    | some e =>
      (some e.1,
       { s with messageSessionIndex := setAssoc s.messageSessionIndex fid e.1 })
    | none =>
      if s.sessions.length == 1 then
        match s.sessions.head? with
        | some e =>
          (some e.1,
           { s with messageSessionIndex := setAssoc s.messageSessionIndex fid e.1 })
        | none => (none, s)
      else (none, s)

/-- The `bus.onOutbound` handler: attribute the fragment to a session and
append it to that session's log (plus, on `done`, a synthesized
aggregated final entry built from this id's non-aggregated outbound
fragments); if no session can be resolved, buffer the fragment keyed by
correlation id. -/
def onOutbound (s : ServerState) (frag : OutboundFragment) : ServerState :=
  let r := resolveSession s frag.id
  match r.1 with
  | none =>
    let buf := (List.lookup frag.id r.2.pendingOutboundBuffers).getD
      ⟨[], frag.modelName, false⟩
    let buf1 : PendingBuf :=
      { fragments := if frag.fragment ≠ "" then buf.fragments ++ [frag.fragment]
                     else buf.fragments
        modelName := buf.modelName
        done := buf.done || frag.done }
    { r.2 with pendingOutboundBuffers :=
        setAssoc r.2.pendingOutboundBuffers frag.id buf1 }
  | some sid =>
    match List.lookup sid r.2.sessions with
    | none => r.2
    | some msgs =>
      let msgs1 := if frag.fragment ≠ "" then
          msgs ++ [.outboundMsg frag.id frag.fragment frag.modelName frag.done false]
        else msgs
      let msgs2 :=
        if frag.done then
          let related := msgs1.filter (fun m =>
            match m with
            | .outboundMsg i f _ _ agg => i == frag.id && f ≠ "" && !agg
            | _ => false)
          let full := String.join (related.map (fun m =>
            match m with
            | .outboundMsg _ f _ _ _ => f
            | _ => ""))
          if full ≠ "" then
            msgs1 ++ [.outboundMsg frag.id full frag.modelName true true]
          else msgs1
        else msgs1
      { r.2 with sessions := setAssoc r.2.sessions sid msgs2 }

/-- The `bus.onInbound` handler: when the message carries a session id,
create the session if unknown, append the inbound entry, record the
correlation mapping, and flush any buffered outbound fragments for this
id — individual entries in arrival order, then, if the buffer was marked
done and the concatenated text is nonempty, one aggregated final entry. -/
def onInbound (s : ServerState) (msg : InboundMessage) : ServerState :=
  match msg.sessionId with
  | none => s
  | some sid =>
    let s1 := if (List.lookup sid s.sessions).isNone then
        { s with sessions := setAssoc s.sessions sid [] }
      else s
    let log1 := (List.lookup sid s1.sessions).getD [] ++ [.inboundMsg msg.id msg.text]
    let s2 : ServerState :=
      { s1 with sessions := setAssoc s1.sessions sid log1
                messageSessionIndex := setAssoc s1.messageSessionIndex msg.id sid }
    match List.lookup msg.id s2.pendingOutboundBuffers with
    | none => s2
    | some buf =>
      let log2 := log1 ++ buf.fragments.map
        (fun f => LogEntry.outboundMsg msg.id f buf.modelName false false)
      let log3 :=
        if buf.done then
          let full := String.join buf.fragments
          if full ≠ "" then
            log2 ++ [.outboundMsg msg.id full buf.modelName true true]
          else log2
        else log2
      { s2 with sessions := setAssoc s2.sessions sid log3
                pendingOutboundBuffers := eraseAssoc s2.pendingOutboundBuffers msg.id }

/-! ### Unified diff (agentTools `buildUnifiedDiff`)

The DP table of the source satisfies
`dp[i][j] = oldLines[i] == newLines[j] ? dp[i+1][j+1] + 1 : max(dp[i+1][j], dp[i][j+1])`
with zero boundaries, i.e. `dp[i][j]` is `lcsLen` of the suffixes starting
at `i` and `j`.  The walk is rendered on suffix lists: `hunkInner` is the
inner mismatch loop, `drainOld`/`drainNew` the two drain loops, and
`diffWalk` the outer loop together with the tail hunk, producing the flat
sequence of kept/removed/added lines (the `@@` headers and the grouping
into hunk strings are presentation only). -/

/-- Length of a longest common subsequence (the source's `dp[i][j]` on
suffix lists). -/
def lcsLen : List String → List String → Nat
  | [], _ => 0
  | _ :: _, [] => 0
  | a :: as, b :: bs =>
    if a = b then lcsLen as bs + 1
    else max (lcsLen as (b :: bs)) (lcsLen (a :: as) bs)
termination_by xs ys => xs.length + ys.length
decreasing_by
  all_goals simp_wf
  all_goals omega

/-- Output of the inner mismatch loop: lines pushed to the hunk's old/new
buffers and the remaining suffixes. -/
structure HunkOut where
  oldBuf : List String
  newBuf : List String
  restOld : List String
  restNew : List String
deriving DecidableEq, Repr

/-- The loop `while (i < m && j < n && oldLines[i] !== newLines[j])`:
advance the side whose drop preserves the larger remaining LCS, preferring
the old side on ties (`dp[i+1][j] >= dp[i][j+1]`). -/
def hunkInner : List String → List String → HunkOut
  | a :: as, b :: bs =>
    if a = b then ⟨[], [], a :: as, b :: bs⟩
    else if lcsLen (a :: as) bs ≤ lcsLen as (b :: bs) then
      let h := hunkInner as (b :: bs)
      ⟨a :: h.oldBuf, h.newBuf, h.restOld, h.restNew⟩
    else
      let h := hunkInner (a :: as) bs
      ⟨h.oldBuf, b :: h.newBuf, h.restOld, h.restNew⟩
  | as, bs => ⟨[], [], as, bs⟩
termination_by xs ys => xs.length + ys.length
decreasing_by
  all_goals simp_wf

/-- The drain `while (i < m && (j >= n || dp[i][j] === dp[i+1][j]))`. -/
def drainOld : List String → List String → List String × List String
  | a :: as, bs =>
    if bs.isEmpty || lcsLen (a :: as) bs == lcsLen as bs then
      let d := drainOld as bs
      (a :: d.1, d.2)
    else ([], a :: as)
  | [], _ => ([], [])

/-- The drain `while (j < n && (i >= m || dp[i][j] === dp[i][j+1]))`
(the old index is the one left by `drainOld`). -/
def drainNew (as : List String) : List String → List String × List String
  | b :: bs =>
    if as.isEmpty || lcsLen as (b :: bs) == lcsLen as bs then
      let d := drainNew as bs
      (b :: d.1, d.2)
    else ([], b :: bs)
  | [] => ([], [])

theorem hunkInner_len : ∀ n, ∀ xs ys : List String, xs.length + ys.length ≤ n →
    (hunkInner xs ys).oldBuf.length + (hunkInner xs ys).restOld.length = xs.length ∧
    (hunkInner xs ys).newBuf.length + (hunkInner xs ys).restNew.length = ys.length := by
  intro n
  induction n with
  | zero =>
    intro xs ys h
    match xs, ys with
    | [], [] => simp [hunkInner]
    | a :: as, _ => simp at h
    | [], b :: bs => simp at h
  | succ n ih =>
    intro xs ys h
    match xs, ys with
    | [], ys => simp [hunkInner]
    | a :: as, [] => simp [hunkInner]
    | a :: as, b :: bs =>
      by_cases hab : a = b
      · simp [hunkInner, hab]
      · by_cases hle : lcsLen (a :: as) bs ≤ lcsLen as (b :: bs)
        · have h2 := ih as (b :: bs) (by simp at h ⊢; omega)
          simp only [List.length_cons] at h2
          simp only [hunkInner, if_neg hab, if_pos hle, List.length_cons]
          omega
        · have h2 := ih (a :: as) bs (by simp at h ⊢; omega)
          simp only [List.length_cons] at h2
          simp only [hunkInner, if_neg hab, if_neg hle, List.length_cons]
          omega

theorem hunkInner_lcs : ∀ n, ∀ xs ys : List String, xs.length + ys.length ≤ n →
    lcsLen (hunkInner xs ys).restOld (hunkInner xs ys).restNew = lcsLen xs ys := by
  intro n
  induction n with
  | zero =>
    intro xs ys h
    match xs, ys with
    | [], [] => simp [hunkInner]
    | a :: as, _ => simp at h
    | [], b :: bs => simp at h
  | succ n ih =>
    intro xs ys h
    match xs, ys with
    | [], ys => simp [hunkInner]
    | a :: as, [] => simp [hunkInner]
    | a :: as, b :: bs =>
      by_cases hab : a = b
      · simp [hunkInner, hab]
      · by_cases hle : lcsLen (a :: as) bs ≤ lcsLen as (b :: bs)
        · have h1 := ih as (b :: bs) (by simp at h ⊢; omega)
          simp only [hunkInner, if_neg hab, if_pos hle]
          rw [lcsLen, if_neg hab, Nat.max_eq_left hle]
          exact h1
        · have h1 := ih (a :: as) bs (by simp at h ⊢; omega)
          simp only [hunkInner, if_neg hab, if_neg hle]
          rw [lcsLen, if_neg hab, Nat.max_eq_right (Nat.le_of_lt (Nat.lt_of_not_le hle))]
          exact h1

theorem hunkInner_progress (a b : String) (as bs : List String) (hab : a ≠ b) :
    (hunkInner (a :: as) (b :: bs)).restOld.length +
      (hunkInner (a :: as) (b :: bs)).restNew.length
    < (a :: as).length + (b :: bs).length := by
  by_cases hle : lcsLen (a :: as) bs ≤ lcsLen as (b :: bs)
  · have h2 := hunkInner_len (as.length + (b :: bs).length) as (b :: bs) le_rfl
    simp only [List.length_cons] at h2
    simp only [hunkInner, if_neg hab, if_pos hle, List.length_cons]
    omega
  · have h2 := hunkInner_len ((a :: as).length + bs.length) (a :: as) bs le_rfl
    simp only [List.length_cons] at h2
    simp only [hunkInner, if_neg hab, if_neg hle, List.length_cons]
    omega

theorem lcs_nil_right (xs : List String) : lcsLen xs [] = 0 := by
  cases xs <;> simp [lcsLen]

theorem lcs_nil_left (ys : List String) : lcsLen [] ys = 0 := by
  simp [lcsLen]

theorem drainOld_len (as bs : List String) :
    (drainOld as bs).1.length + (drainOld as bs).2.length = as.length := by
  induction as with
  | nil => simp [drainOld]
  | cons a t ih =>
    by_cases hc : (bs.isEmpty || lcsLen (a :: t) bs == lcsLen t bs) = true
    · simp only [drainOld, hc, if_true, List.length_cons]
      omega
    · simp only [drainOld, if_neg hc, List.length_cons]
      simp

theorem drainOld_lcs (as bs : List String) :
    lcsLen (drainOld as bs).2 bs = lcsLen as bs := by
  induction as with
  | nil => simp [drainOld]
  | cons a t ih =>
    by_cases hc : (bs.isEmpty || lcsLen (a :: t) bs == lcsLen t bs) = true
    · simp only [drainOld, hc, if_true]
      rw [ih]
      rcases Bool.or_eq_true_iff.mp hc with hnil | heq
      · rw [List.isEmpty_iff.mp hnil, lcs_nil_right, lcs_nil_right]
      · exact ((by simpa using heq : lcsLen (a :: t) bs = lcsLen t bs)).symm
    · simp only [drainOld, if_neg hc]

theorem drainNew_len (as bs : List String) :
    (drainNew as bs).1.length + (drainNew as bs).2.length = bs.length := by
  induction bs with
  | nil => simp [drainNew]
  | cons b t ih =>
    by_cases hc : (as.isEmpty || lcsLen as (b :: t) == lcsLen as t) = true
    · simp only [drainNew, hc, if_true, List.length_cons]
      omega
    · simp only [drainNew, if_neg hc, List.length_cons]
      simp

theorem drainNew_lcs (as bs : List String) :
    lcsLen as (drainNew as bs).2 = lcsLen as bs := by
  induction bs with
  | nil => simp [drainNew]
  | cons b t ih =>
    by_cases hc : (as.isEmpty || lcsLen as (b :: t) == lcsLen as t) = true
    · simp only [drainNew, hc, if_true]
      rw [ih]
      rcases Bool.or_eq_true_iff.mp hc with hnil | heq
      · rw [List.isEmpty_iff.mp hnil, lcs_nil_left, lcs_nil_left]
      · exact ((by simpa using heq : lcsLen as (b :: t) = lcsLen as t)).symm
    · simp only [drainNew, if_neg hc]

/-- One aligned line of the diff: kept (outside hunks), removed (a `-`
line) or added (a `+` line). -/
inductive DiffOp where
  | keep (line : String)
  | remove (line : String)
  | add (line : String)
deriving DecidableEq, Repr

/-- The outer walk of `buildUnifiedDiff` over suffix lists, flattened to
the sequence of kept/removed/added lines: matched lines are consumed
outside hunks; at a mismatch one hunk is built by the inner loop and the
two drains (old-side `-` lines before new-side `+` lines, as in the
emitted hunk); the tail after either side is exhausted becomes a final
hunk. -/
def diffWalk : List String → List String → List DiffOp
  | [], [] => []
  | a :: as, [] => .remove a :: diffWalk as []
  | [], b :: bs => .add b :: diffWalk [] bs
  | a :: as, b :: bs =>
    if a = b then .keep a :: diffWalk as bs
    else
      let h := hunkInner (a :: as) (b :: bs)
      let dOld := drainOld h.restOld h.restNew
      let dNew := drainNew dOld.2 h.restNew
      ((h.oldBuf ++ dOld.1).map .remove) ++ ((h.newBuf ++ dNew.1).map .add)
        ++ diffWalk dOld.2 dNew.2
termination_by xs ys => xs.length + ys.length
decreasing_by
  all_goals simp_wf
  all_goals try omega
  all_goals
    (have h1 := hunkInner_progress a b as bs (by assumption)
     have h2 := drainOld_len (hunkInner (a :: as) (b :: bs)).restOld
       (hunkInner (a :: as) (b :: bs)).restNew
     have h3 := drainNew_len
       (drainOld (hunkInner (a :: as) (b :: bs)).restOld
         (hunkInner (a :: as) (b :: bs)).restNew).2
       (hunkInner (a :: as) (b :: bs)).restNew
     simp only [List.length_cons] at h1 h2 h3 ⊢
     omega)

/-- The number of changed (removed plus added) lines of a diff. -/
def changedCount (ops : List DiffOp) : Nat :=
  (ops.filter (fun o => match o with | .keep _ => false | _ => true)).length

/-- The alignment `buildUnifiedDiff` computes for the approval preview of
an `editFile`, on the line splits of the old and new contents (headers
and hunk strings are presentation of exactly these removed/added lines). -/
def buildUnifiedDiffOps (oldStr newStr : String) : List DiffOp :=
  diffWalk (splitLines oldStr) (splitLines newStr)

theorem changedCount_append (l1 l2 : List DiffOp) :
    changedCount (l1 ++ l2) = changedCount l1 + changedCount l2 := by
  simp [changedCount]

theorem changedCount_map_remove (l : List String) :
    changedCount (l.map DiffOp.remove) = l.length := by
  induction l with
  | nil => rfl
  | cons a t ih => simpa [changedCount, List.filter_cons] using ih

theorem changedCount_map_add (l : List String) :
    changedCount (l.map DiffOp.add) = l.length := by
  induction l with
  | nil => rfl
  | cons a t ih => simpa [changedCount, List.filter_cons] using ih

theorem changedCount_keep_cons (a : String) (l : List DiffOp) :
    changedCount (.keep a :: l) = changedCount l := by
  simp [changedCount, List.filter_cons]

theorem changedCount_remove_cons (a : String) (l : List DiffOp) :
    changedCount (.remove a :: l) = changedCount l + 1 := by
  simp [changedCount, List.filter_cons]

theorem changedCount_add_cons (a : String) (l : List DiffOp) :
    changedCount (.add a :: l) = changedCount l + 1 := by
  simp [changedCount, List.filter_cons]

/-- Invariant of the walk: kept lines account for exactly the LCS length,
so removed+added lines account for the rest. -/
theorem diffWalk_changed_aux : ∀ n, ∀ xs ys : List String,
    xs.length + ys.length ≤ n →
    changedCount (diffWalk xs ys) + 2 * lcsLen xs ys = xs.length + ys.length := by
  intro n
  induction n with
  | zero =>
    intro xs ys h
    match xs, ys with
    | [], [] => simp [diffWalk, changedCount, lcsLen]
    | a :: as, _ => simp at h
    | [], b :: bs => simp at h
  | succ n ih =>
    intro xs ys h
    match xs, ys with
    | [], [] => simp [diffWalk, changedCount, lcsLen]
    | a :: as, [] =>
      have h2 := ih as [] (by simp at h ⊢; omega)
      simp only [diffWalk, changedCount_remove_cons, lcs_nil_right, List.length_cons] at h2 ⊢
      simp [lcs_nil_right] at h2 ⊢
      omega
    | [], b :: bs =>
      have h2 := ih [] bs (by simp at h ⊢; omega)
      simp only [diffWalk, changedCount_add_cons, lcs_nil_left, List.length_cons] at h2 ⊢
      simp [lcs_nil_left] at h2 ⊢
      omega
    | a :: as, b :: bs =>
      by_cases hab : a = b
      · have h2 := ih as bs (by simp at h ⊢; omega)
        rw [diffWalk, if_pos hab, lcsLen, if_pos hab]
        rw [changedCount_keep_cons]
        simp only [List.length_cons]
        omega
      · rw [diffWalk, if_neg hab]
        have hprog := hunkInner_progress a b as bs hab
        have hol := hunkInner_len ((a :: as).length + (b :: bs).length)
          (a :: as) (b :: bs) le_rfl
        have hlcs := hunkInner_lcs ((a :: as).length + (b :: bs).length)
          (a :: as) (b :: bs) le_rfl
        have hdo := drainOld_len (hunkInner (a :: as) (b :: bs)).restOld
          (hunkInner (a :: as) (b :: bs)).restNew
        have hdol := drainOld_lcs (hunkInner (a :: as) (b :: bs)).restOld
          (hunkInner (a :: as) (b :: bs)).restNew
        have hdn := drainNew_len
          (drainOld (hunkInner (a :: as) (b :: bs)).restOld
            (hunkInner (a :: as) (b :: bs)).restNew).2
          (hunkInner (a :: as) (b :: bs)).restNew
        have hdnl := drainNew_lcs
          (drainOld (hunkInner (a :: as) (b :: bs)).restOld
            (hunkInner (a :: as) (b :: bs)).restNew).2
          (hunkInner (a :: as) (b :: bs)).restNew
        have h2 := ih
          (drainOld (hunkInner (a :: as) (b :: bs)).restOld
            (hunkInner (a :: as) (b :: bs)).restNew).2
          (drainNew
            (drainOld (hunkInner (a :: as) (b :: bs)).restOld
              (hunkInner (a :: as) (b :: bs)).restNew).2
            (hunkInner (a :: as) (b :: bs)).restNew).2
          (by simp only [List.length_cons] at h hprog ⊢; omega)
        simp only [changedCount_append, changedCount_map_remove,
          changedCount_map_add, List.length_append, List.length_cons] at hol hdo hdn h2 ⊢
        omega

theorem diffWalk_changed (xs ys : List String) :
    changedCount (diffWalk xs ys) + 2 * lcsLen xs ys = xs.length + ys.length :=
  diffWalk_changed_aux (xs.length + ys.length) xs ys le_rfl

/-- Monotonicity and one-step-drop bounds for `lcsLen`, proved jointly. -/
theorem lcs_facts : ∀ n, ∀ xs ys : List String, xs.length + ys.length ≤ n →
    (∀ a, lcsLen (a :: xs) ys ≤ lcsLen xs ys + 1) ∧
    (∀ b, lcsLen xs (b :: ys) ≤ lcsLen xs ys + 1) ∧
    (∀ a, lcsLen xs ys ≤ lcsLen (a :: xs) ys) ∧
    (∀ b, lcsLen xs ys ≤ lcsLen xs (b :: ys)) := by
  intro n
  induction n with
  | zero =>
    intro xs ys h
    match xs, ys with
    | [], [] =>
      refine ⟨fun a => ?_, fun b => ?_, fun a => ?_, fun b => ?_⟩ <;>
        simp [lcs_nil_left, lcs_nil_right]
    | a :: as, _ => simp at h
    | [], b :: bs => simp at h
  | succ n ih =>
    intro xs ys h
    refine ⟨fun a => ?_, fun b => ?_, fun a => ?_, fun b => ?_⟩
    · match xs, ys with
      | xs, [] => simp [lcs_nil_right]
      | xs, c :: cs =>
        rw [lcsLen]
        by_cases hac : a = c
        · rw [if_pos hac]
          have hm := (ih xs cs (by simp at h ⊢; omega)).2.2.2 c
          omega
        · rw [if_neg hac]
          have h1 := (ih xs cs (by simp at h ⊢; omega)).1 a
          have h2 := (ih xs cs (by simp at h ⊢; omega)).2.1 c
          have h3 := (ih xs cs (by simp at h ⊢; omega)).2.2.2 c
          have hx : lcsLen xs (c :: cs) ≤ lcsLen xs (c :: cs) + 0 := by omega
          refine max_le ?_ ?_
          · omega
          · calc lcsLen (a :: xs) cs ≤ lcsLen xs cs + 1 := h1
              _ ≤ lcsLen xs (c :: cs) + 1 := by omega
    · match xs, ys with
      | [], ys => simp [lcs_nil_left]
      | c :: cs, ys =>
        rw [lcsLen]
        by_cases hcb : c = b
        · rw [if_pos hcb]
          have hm := (ih cs ys (by simp at h ⊢; omega)).2.2.1 c
          omega
        · rw [if_neg hcb]
          have h1 := (ih cs ys (by simp at h ⊢; omega)).2.1 b
          have h2 := (ih cs ys (by simp at h ⊢; omega)).2.2.1 c
          refine max_le ?_ ?_
          · calc lcsLen cs (b :: ys) ≤ lcsLen cs ys + 1 := h1
              _ ≤ lcsLen (c :: cs) ys + 1 := by omega
          · omega
    · match xs, ys with
      | xs, [] => simp [lcs_nil_right]
      | xs, c :: cs =>
        rw [lcsLen]
        by_cases hac : a = c
        · rw [if_pos hac]
          have hm := (ih xs cs (by simp at h ⊢; omega)).2.1 c
          omega
        · rw [if_neg hac]
          exact le_max_left _ _
    · match xs, ys with
      | [], ys => simp [lcs_nil_left]
      | c :: cs, ys =>
        rw [lcsLen]
        by_cases hcb : c = b
        · rw [if_pos hcb]
          have hm := (ih cs ys (by simp at h ⊢; omega)).1 c
          omega
        · rw [if_neg hcb]
          exact le_max_right _ _

theorem lcs_mono_left (a : String) (xs ys : List String) :
    lcsLen xs ys ≤ lcsLen (a :: xs) ys :=
  (lcs_facts (xs.length + ys.length) xs ys le_rfl).2.2.1 a

theorem lcs_mono_right (b : String) (xs ys : List String) :
    lcsLen xs ys ≤ lcsLen xs (b :: ys) :=
  (lcs_facts (xs.length + ys.length) xs ys le_rfl).2.2.2 b

/-- Maximality of `lcsLen`: every common subsequence is at most as long. -/
theorem lcs_is_max : ∀ n, ∀ xs ys s : List String, xs.length + ys.length ≤ n →
    s.Sublist xs → s.Sublist ys → s.length ≤ lcsLen xs ys := by
  intro n
  induction n with
  | zero =>
    intro xs ys s h h1 h2
    match xs, ys with
    | [], [] =>
      rw [List.sublist_nil.mp h1]
      simp
    | a :: as, _ => simp at h
    | [], b :: bs => simp at h
  | succ n ih =>
    intro xs ys s h h1 h2
    match xs, ys with
    | [], ys =>
      rw [List.sublist_nil.mp h1]
      simp
    | a :: as, [] =>
      rw [List.sublist_nil.mp h2]
      simp
    | a :: as, b :: bs =>
      match s with
      | [] => simp
      | c :: cs =>
        rcases List.sublist_cons_iff.mp h1 with h1t | ⟨r1, hr1, h1t⟩
        · have hs := ih as (b :: bs) (c :: cs) (by simp at h ⊢; omega) h1t h2
          exact le_trans hs (lcs_mono_left a as (b :: bs))
        · rcases List.sublist_cons_iff.mp h2 with h2t | ⟨r2, hr2, h2t⟩
          · have hs := ih (a :: as) bs (c :: cs) (by simp at h ⊢; omega) h1 h2t
            exact le_trans hs (lcs_mono_right b (a :: as) bs)
          · injection hr1 with hc1 hcs1
            injection hr2 with hc2 hcs2
            have hab : a = b := by rw [← hc1, hc2]
            have hs := ih as bs cs (by simp at h ⊢; omega)
              (hcs1 ▸ h1t) (hcs2 ▸ h2t)
            rw [lcsLen, if_pos hab]
            simp only [List.length_cons]
            omega

/-! ## Claims -/

/-- Fixture options for concrete witnesses. -/
def opts0 : AgentToolsOptions := ⟨["src"], false, false⟩

/-- Fixture oracles for concrete witnesses (a failing, killed command). -/
def orc0 : Oracles :=
  ⟨fun _ => true, fun _ => true,
   fun _ => ⟨some 1, some "SIGTERM", true, "out line", "error line"⟩⟩

/-- Fixture tool state for concrete witnesses. -/
def ts0 : ToolState := ⟨[("src/a.txt", "old")], [], [], 0, 0⟩

theorem execOne_tool (opts : AgentToolsOptions) (orc : Oracles) (a : ToolAction)
    (s : ToolState) : ((execOne opts orc a s).1).tool = expectedTool a := by
  cases a <;> (simp only [execOne, expectedTool]; repeat' split) <;> rfl

theorem execute_length (opts : AgentToolsOptions) (orc : Oracles) :
    ∀ (actions : List ToolAction) (s : ToolState),
      ((execute opts orc actions s).1).length = actions.length := by
  intro actions
  induction actions with
  | nil => intro s; rfl
  | cons a t ih => intro s; simp [execute, ih]

theorem execute_get (opts : AgentToolsOptions) (orc : Oracles) :
    ∀ (actions : List ToolAction) (s : ToolState) (i : Nat) (a : ToolAction),
      actions[i]? = some a →
      ∃ st, ((execute opts orc actions s).1)[i]? = some ((execOne opts orc a st).1) := by
  intro actions
  induction actions with
  | nil => intro s i a h; simp at h
  | cons hd tl ih =>
    intro s i a h
    cases i with
    | zero =>
      simp only [List.getElem?_cons_zero, Option.some.injEq] at h
      subst h
      exact ⟨s, by simp [execute]⟩
    | succ j =>
      simp only [List.getElem?_cons_succ] at h
      obtain ⟨st, hst⟩ := ih (execOne opts orc hd s).2 j a h
      exact ⟨st, by simpa [execute] using hst⟩

/-- C1: `AgentTools.execute` returns exactly one result per input action,
in input order — results[i] is the outcome of executing actions[i] (at
the state reached after the earlier actions), tagged with that action's
tool — and execution continues past individual failures, each failing
action contributing its failure result in place while the remaining
actions still execute. -/
theorem c1_execute_one_result_per_action (opts : AgentToolsOptions) (orc : Oracles)
    (actions : List ToolAction) (s : ToolState) :
    ((execute opts orc actions s).1).length = actions.length ∧
    ∀ (i : Nat) (a : ToolAction), actions[i]? = some a →
      ∃ st, ((execute opts orc actions s).1)[i]? = some ((execOne opts orc a st).1) ∧
            ((execOne opts orc a st).1).tool = expectedTool a :=
  ⟨execute_length opts orc actions s,
   fun i a h => by
     obtain ⟨st, hst⟩ := execute_get opts orc actions s i a h
     exact ⟨st, hst, execOne_tool opts orc a st⟩⟩

/-- Witness for C1 at a concrete two-action batch whose first action
fails the allow-list and whose second succeeds. -/
theorem c1_witness :
    ((execute opts0 orc0
        [.createFile "secret/x" "hi", .createFile "src/new.txt" "hi"] ts0).1).length = 2 ∧
    ∃ st, ((execute opts0 orc0
        [.createFile "secret/x" "hi", .createFile "src/new.txt" "hi"] ts0).1)[1]? =
          some ((execOne opts0 orc0 (.createFile "src/new.txt" "hi") st).1) ∧
      ((execOne opts0 orc0 (.createFile "src/new.txt" "hi") st).1).tool =
        expectedTool (.createFile "src/new.txt" "hi") :=
  ⟨(c1_execute_one_result_per_action opts0 orc0 _ ts0).1,
   (c1_execute_one_result_per_action opts0 orc0 _ ts0).2 1 _ rfl⟩

/-- C5 counterexample: a requested `timeoutMs` of `0` is not clamped into
`[1, 20000]` (which would give 1) — the engine falls back to the 8000
default, and that is the timeout its spawn uses. -/
theorem c5_counterexample :
    effTimeout (some 0) = 8000 ∧
    max 1 (min (0 : Int) 20000) = 1 ∧
    (8000 : Int) ≠ 1 ∧
    (execOne opts0 orc0 (.runCommand "echo hi" none (some 0)) ts0).2.spawned =
      [("echo hi", "", 8000)] := by
  refine ⟨rfl, ?_, ?_, rfl⟩ <;> decide

/-- C5 (amended): a positive requested `timeoutMs` is clamped to at most
20000 and hence lies in `[1, 20000]`; an absent, zero, or negative
request falls back to the 8000 default; and the spawn performed by
`runCommand` uses exactly this effective timeout. -/
theorem c5_timeout_clamp_amended (t : Int) :
    (0 < t → effTimeout (some t) = min t 20000 ∧
      1 ≤ effTimeout (some t) ∧ effTimeout (some t) ≤ 20000) ∧
    (t ≤ 0 → effTimeout (some t) = 8000) ∧
    effTimeout none = 8000 ∧
    (∀ (opts : AgentToolsOptions) (orc : Oracles) (s : ToolState) (cmd : String),
      opts.requireApproval = false → cmd ≠ "" →
      (execOne opts orc (.runCommand cmd none (some t)) s).2.spawned =
        s.spawned ++ [(cmd, "", effTimeout (some t))]) := by
  refine ⟨fun ht => ?_, fun ht => ?_, rfl, fun opts orc s cmd hra hcmd => ?_⟩
  · refine ⟨by simp only [effTimeout, if_pos ht], ?_, ?_⟩ <;>
      (simp only [effTimeout, if_pos ht]; omega)
  · simp only [effTimeout, if_neg (by omega : ¬ (0:Int) < t)]
  · simp only [execOne, if_neg hcmd]
    simp [hra, relCwdOf]

/-- Witness for C5's amended statement at 30000 (clamped to 20000) and
at a negative request (default 8000), including the spawn. -/
theorem c5_witness :
    (effTimeout (some 30000) = min (30000 : Int) 20000 ∧
      1 ≤ effTimeout (some 30000) ∧ effTimeout (some 30000) ≤ 20000) ∧
    effTimeout (some (-5)) = 8000 ∧
    (execOne opts0 orc0 (.runCommand "ls" none (some 30000)) ts0).2.spawned =
      ts0.spawned ++ [("ls", "", effTimeout (some 30000))] :=
  ⟨(c5_timeout_clamp_amended 30000).1 (by decide),
   (c5_timeout_clamp_amended (-5)).2.1 (by decide),
   (c5_timeout_clamp_amended 30000).2.2.2 opts0 orc0 ts0 "ls" rfl (by decide)⟩

/-- C10: a `runCommand` action that passes the missing-command check, the
cwd authorization and the approval gate always yields `success = true`
with no `error` field; the exit code, the signal and a timeout kill are
reported only inside the detail (`code`, `signal`, `timedOut`). -/
theorem c10_runCommand_always_success (opts : AgentToolsOptions) (orc : Oracles)
    (s : ToolState) (cmd : String) (cwd : Option String) (t : Option Int)
    (hcmd : cmd ≠ "")
    (hcwd : relCwdOf cwd = "" ∨ isAllowed opts.allowedRoots (relCwdOf cwd) = true)
    (hap : opts.requireApproval = true → orc.quickPick s.quickPicksAsked = true) :
    ((execOne opts orc (.runCommand cmd cwd t) s).1).success = true ∧
    ((execOne opts orc (.runCommand cmd cwd t) s).1).error = none ∧
    ∃ d, ((execOne opts orc (.runCommand cmd cwd t) s).1).detail = some (.ran d) ∧
      d.code = (orc.cmdOutcome s.spawned.length).errCode.getD 0 ∧
      d.signal = (orc.cmdOutcome s.spawned.length).signal ∧
      d.timedOut = ((orc.cmdOutcome s.spawned.length).killed &&
        (orc.cmdOutcome s.spawned.length).signal == some "SIGTERM") := by
  simp only [execOne, if_neg hcmd]
  have hcond : (decide (relCwdOf cwd ≠ "") &&
      !(isAllowed opts.allowedRoots (relCwdOf cwd))) = false := by
    rcases hcwd with h | h
    · simp [h]
    · simp [h]
  have hneg : ¬ ((decide (relCwdOf cwd ≠ "") &&
      !(isAllowed opts.allowedRoots (relCwdOf cwd))) = true) := by
    rw [hcond]
    exact Bool.false_ne_true
  rw [if_neg hneg]
  by_cases hra : opts.requireApproval
  · rw [if_pos hra]
    have hqp := hap hra
    rw [hqp]
    exact ⟨rfl, rfl, _, rfl, rfl, rfl, rfl⟩
  · rw [if_neg hra]
    exact ⟨rfl, rfl, _, rfl, rfl, rfl, rfl⟩

/-- Witness for C10 at a concrete command whose outcome has exit code 1
and a SIGTERM kill. -/
theorem c10_witness :
    ((execOne opts0 orc0 (.runCommand "make" (some "src") none) ts0).1).success = true ∧
    ((execOne opts0 orc0 (.runCommand "make" (some "src") none) ts0).1).error = none ∧
    ∃ d, ((execOne opts0 orc0 (.runCommand "make" (some "src") none) ts0).1).detail =
        some (.ran d) ∧
      d.code = (orc0.cmdOutcome ts0.spawned.length).errCode.getD 0 ∧
      d.signal = (orc0.cmdOutcome ts0.spawned.length).signal ∧
      d.timedOut = ((orc0.cmdOutcome ts0.spawned.length).killed &&
        (orc0.cmdOutcome ts0.spawned.length).signal == some "SIGTERM") :=
  c10_runCommand_always_success opts0 orc0 ts0 "make" (some "src") none
    (by decide) (Or.inr (by decide)) (fun h => absurd h (by decide))

theorem readEach_spec (roots : List String) (fs : List (String × String)) :
    ∀ files : List String,
      (readEach roots fs files).1 = files.map (readOutcome roots fs) ∧
      (readEach roots fs files).2 =
        files.filter (fun f => isAllowed roots f && (List.lookup f fs).isSome) := by
  intro files
  induction files with
  | nil => exact ⟨rfl, rfl⟩
  | cons f rest ih =>
    cases hall : isAllowed roots f with
    | false =>
      constructor
      · simp [readEach, readOutcome, hall, ih.1]
      · simp [readEach, hall, ih.2, List.filter_cons]
    | true =>
      cases hlk : List.lookup f fs with
      | none =>
        constructor
        · simp [readEach, readOutcome, hall, hlk, ih.1]
        · simp [readEach, hall, hlk, ih.2, List.filter_cons]
      | some c =>
        constructor
        · simp [readEach, readOutcome, hall, hlk, ih.1]
        · simp [readEach, hall, hlk, ih.2, List.filter_cons]

/-- C7: a path-bearing action whose path fails the allow-list check
produces a not-allowed failure and no side effect: `createFile`,
`editFile` and a `runCommand` with a disallowed cwd return the failure
with the world state literally unchanged (no write, no read, no spawn,
no approval consumed), and a disallowed file inside `readFiles` yields
the per-file `Not allowed` error entry while that file is never read and
the filesystem and spawn logs stay unchanged. -/
theorem c7_not_allowed_no_side_effect (opts : AgentToolsOptions) (orc : Oracles)
    (s : ToolState) :
    (∀ p c, isAllowed opts.allowedRoots p = false →
      execOne opts orc (.createFile p c) s =
        ({ tool := "createFile", success := false, error := some "Not allowed" }, s)) ∧
    (∀ p c, isAllowed opts.allowedRoots p = false →
      execOne opts orc (.editFile p c) s =
        ({ tool := "editFile", success := false, error := some "Not allowed" }, s)) ∧
    (∀ cmd d t, cmd ≠ "" → relCwdOf (some d) ≠ "" →
      isAllowed opts.allowedRoots (relCwdOf (some d)) = false →
      execOne opts orc (.runCommand cmd (some d) t) s =
        ({ tool := "runCommand", success := false, error := some "cwd not allowed" },
         s)) ∧
    (∀ files : List String,
      (execOne opts orc (.readFiles files) s).1 =
        { tool := "readFiles", success := true,
          detail := some (.files (files.map (readOutcome opts.allowedRoots s.fs))) } ∧
      (execOne opts orc (.readFiles files) s).2 =
        { s with reads := s.reads ++
            files.filter (fun f => isAllowed opts.allowedRoots f &&
              (List.lookup f s.fs).isSome) } ∧
      (execOne opts orc (.readFiles files) s).2.fs = s.fs ∧
      (execOne opts orc (.readFiles files) s).2.spawned = s.spawned ∧
      ∀ f, isAllowed opts.allowedRoots f = false →
        readOutcome opts.allowedRoots s.fs f = FileRead.err f "Not allowed" ∧
        f ∉ files.filter (fun f => isAllowed opts.allowedRoots f &&
              (List.lookup f s.fs).isSome)) := by
  refine ⟨fun p c h => ?_, fun p c h => ?_, fun cmd d t hcmd hne h => ?_,
    fun files => ?_⟩
  · simp [execOne, h]
  · simp [execOne, h]
  · have hcond : (decide (relCwdOf (some d) ≠ "") &&
        !(isAllowed opts.allowedRoots (relCwdOf (some d)))) = true := by
      simp [hne, h]
    simp only [execOne, if_neg hcmd]
    rw [if_pos hcond]
  · have hr := readEach_spec opts.allowedRoots s.fs files
    refine ⟨?_, ?_, ?_, ?_, fun f hf => ⟨?_, ?_⟩⟩
    · simp only [execOne, hr.1]
    · simp only [execOne, hr.2]
    · simp only [execOne]
    · simp only [execOne]
    · simp [readOutcome, hf]
    · intro hmem
      rw [List.mem_filter] at hmem
      rw [hf] at hmem
      simp at hmem

/-- Witness for C7 at concrete disallowed paths. -/
theorem c7_witness :
    execOne opts0 orc0 (.createFile "secret/x" "hi") ts0 =
      ({ tool := "createFile", success := false, error := some "Not allowed" }, ts0) ∧
    execOne opts0 orc0 (.editFile "secret/x" (some "hi")) ts0 =
      ({ tool := "editFile", success := false, error := some "Not allowed" }, ts0) ∧
    execOne opts0 orc0 (.runCommand "ls" (some "secret") none) ts0 =
      ({ tool := "runCommand", success := false, error := some "cwd not allowed" },
       ts0) ∧
    readOutcome opts0.allowedRoots ts0.fs "secret/x" =
      FileRead.err "secret/x" "Not allowed" ∧
    (execOne opts0 orc0 (.readFiles ["secret/x", "src/a.txt"]) ts0).2.fs = ts0.fs :=
  ⟨(c7_not_allowed_no_side_effect opts0 orc0 ts0).1 "secret/x" "hi" (by decide),
   (c7_not_allowed_no_side_effect opts0 orc0 ts0).2.1 "secret/x" (some "hi") (by decide),
   (c7_not_allowed_no_side_effect opts0 orc0 ts0).2.2.1 "ls" "secret" none
     (by decide) (by decide) (by decide),
   (((c7_not_allowed_no_side_effect opts0 orc0 ts0).2.2.2
       ["secret/x", "src/a.txt"]).2.2.2.2 "secret/x" (by decide)).1,
   ((c7_not_allowed_no_side_effect opts0 orc0 ts0).2.2.2
       ["secret/x", "src/a.txt"]).2.2.1⟩

/-- C4: the MessageBus emit loops do not isolate listener exceptions.
With two registered listeners of which the first throws, delivery stops
after the first listener — the second never receives the event — and the
exception reaches the publisher; when no listener throws, every listener
is invoked and the publisher observes no exception; in general a throwing
listener always ends delivery at itself. -/
theorem c4_listener_exception_not_isolated :
    emitToListeners [true, false] = (1, true) ∧
    emitToListeners [false, false] = (2, false) ∧
    (∀ post : List Bool, emitToListeners (true :: post) = (1, true)) :=
  ⟨rfl, rfl, fun _ => rfl⟩

/-- Recorded resolution outcomes for one approval id. -/
def outcomesFor (id : String) (s : ApprovalState) : List (String × Bool) :=
  s.outcome.filter (fun e => e.1 = id)

theorem runApproval_cons (s : ApprovalState) (e : ApprEvent) (rest : List ApprEvent) :
    runApproval s (e :: rest) = runApproval (stepApproval s e) rest := rfl

theorem stepApproval_preserve (s : ApprovalState) (e : ApprEvent) (id : String)
    (hp : id ∉ s.pending) :
    outcomesFor id (stepApproval s e) = outcomesFor id s ∧
    id ∉ (stepApproval s e).pending := by
  cases e with
  | decision i ap =>
    by_cases hi : i ∈ s.pending
    · have hne : i ≠ id := fun h => hp (h ▸ hi)
      constructor
      · simp [stepApproval, hi, outcomesFor, List.filter_append, hne]
      · simp only [stepApproval, if_pos hi]
        intro hmem
        exact hp (List.mem_of_mem_erase hmem)
    · simp [stepApproval, hi, hp]
  | timeout i =>
    by_cases hi : i ∈ s.pending
    · have hne : i ≠ id := fun h => hp (h ▸ hi)
      constructor
      · simp [stepApproval, hi, outcomesFor, List.filter_append, hne]
      · simp only [stepApproval, if_pos hi]
        intro hmem
        exact hp (List.mem_of_mem_erase hmem)
    · simp [stepApproval, hi, hp]

theorem runApproval_not_pending : ∀ (evs : List ApprEvent) (s : ApprovalState)
    (id : String), id ∉ s.pending →
    outcomesFor id (runApproval s evs) = outcomesFor id s ∧
    id ∉ (runApproval s evs).pending := by
  intro evs
  induction evs with
  | nil => intro s id hp; exact ⟨rfl, hp⟩
  | cons e rest ih =>
    intro s id hp
    obtain ⟨h1, h2⟩ := stepApproval_preserve s e id hp
    rw [runApproval_cons]
    exact ⟨(ih _ id h2).1.trans h1, (ih _ id h2).2⟩

theorem stepApproval_other (s : ApprovalState) (e : ApprEvent) (id : String)
    (hnd : s.pending.Nodup) (hp : id ∈ s.pending) (h0 : outcomesFor id s = [])
    (hother : (∀ ap, e ≠ .decision id ap) ∧ e ≠ .timeout id) :
    outcomesFor id (stepApproval s e) = [] ∧
    id ∈ (stepApproval s e).pending ∧
    (stepApproval s e).pending.Nodup := by
  cases e with
  | decision i ap =>
    have hne : i ≠ id := by
      intro h
      exact (hother.1 ap) (by rw [h])
    by_cases hi : i ∈ s.pending
    · refine ⟨?_, ?_, ?_⟩
      · simp [stepApproval, hi, outcomesFor, List.filter_append, hne] at h0 ⊢
        exact h0
      · simp only [stepApproval, if_pos hi]
        exact (List.mem_erase_of_ne (fun h => hne h.symm)).mpr hp
      · simp only [stepApproval, if_pos hi]
        exact List.Nodup.erase i hnd
    · simpa [stepApproval, hi] using ⟨h0, hp, hnd⟩
  | timeout i =>
    have hne : i ≠ id := by
      intro h
      exact hother.2 (by rw [h])
    by_cases hi : i ∈ s.pending
    · refine ⟨?_, ?_, ?_⟩
      · simp [stepApproval, hi, outcomesFor, List.filter_append, hne] at h0 ⊢
        exact h0
      · simp only [stepApproval, if_pos hi]
        exact (List.mem_erase_of_ne (fun h => hne h.symm)).mpr hp
      · simp only [stepApproval, if_pos hi]
        exact List.Nodup.erase i hnd
    · simpa [stepApproval, hi] using ⟨h0, hp, hnd⟩

theorem runApproval_first_resolution : ∀ (evs : List ApprEvent) (s : ApprovalState)
    (id : String), s.pending.Nodup → id ∈ s.pending → outcomesFor id s = [] →
    outcomesFor id (runApproval s evs) =
      (match firstResolution id evs with
       | some b => [(id, b)]
       | none => []) := by
  intro evs
  induction evs with
  | nil =>
    intro s id hnd hp h0
    simpa [runApproval, firstResolution] using h0
  | cons e rest ih =>
    intro s id hnd hp h0
    rw [runApproval_cons]
    cases e with
    | decision i ap =>
      by_cases hi : i = id
      · subst hi
        have hout : outcomesFor i (stepApproval s (.decision i ap)) = [(i, ap)] := by
          simp only [stepApproval, if_pos hp]
          simp [outcomesFor, List.filter_append] at h0 ⊢
          exact h0
        have hnp : i ∉ (stepApproval s (.decision i ap)).pending := by
          simp only [stepApproval, if_pos hp]
          exact List.Nodup.not_mem_erase hnd
        rw [(runApproval_not_pending rest _ i hnp).1, hout]
        simp [firstResolution]
      · have hpre := stepApproval_other s (.decision i ap) id hnd hp h0
          ⟨fun ap2 h => hi (by injection h), by intro h; injection h⟩
        rw [ih _ id hpre.2.2 hpre.2.1 hpre.1]
        simp only [firstResolution, if_neg hi]
    | timeout i =>
      by_cases hi : i = id
      · subst hi
        have hout : outcomesFor i (stepApproval s (.timeout i)) = [(i, false)] := by
          simp only [stepApproval, if_pos hp]
          simp [outcomesFor, List.filter_append] at h0 ⊢
          exact h0
        have hnp : i ∉ (stepApproval s (.timeout i)).pending := by
          simp only [stepApproval, if_pos hp]
          exact List.Nodup.not_mem_erase hnd
        rw [(runApproval_not_pending rest _ i hnp).1, hout]
        simp [firstResolution]
      · have hpre := stepApproval_other s (.timeout i) id hnd hp h0
          ⟨fun ap2 h => by injection h, fun h => hi (by injection h)⟩
        rw [ih _ id hpre.2.2 hpre.2.1 hpre.1]
        simp only [firstResolution, if_neg hi]

/-- C6: every pending approval is resolved exactly once.  Along any event
trace the recorded outcome for an id is exactly what the first matching
decision (or timeout, which records `false`) assigns — at most one
resolution is ever recorded — and a decision or timeout for an id that is
no longer pending leaves the approval state entirely unchanged, so a
second decision with the same approvalId has no further effect on the
outcome (and hence on any file write gated by it). -/
theorem c6_approval_resolved_once :
    (∀ (s : ApprovalState) (evs : List ApprEvent) (id : String),
      s.pending.Nodup → id ∈ s.pending → outcomesFor id s = [] →
      outcomesFor id (runApproval s evs) =
        (match firstResolution id evs with
         | some b => [(id, b)]
         | none => []) ∧
      (outcomesFor id (runApproval s evs)).length ≤ 1) ∧
    (∀ (s : ApprovalState) (id : String), id ∉ s.pending →
      (∀ ap, stepApproval s (.decision id ap) = s) ∧
      stepApproval s (.timeout id) = s) := by
  constructor
  · intro s evs id hnd hp h0
    have h := runApproval_first_resolution evs s id hnd hp h0
    refine ⟨h, ?_⟩
    rw [h]
    match firstResolution id evs with
    | some b => simp
    | none => simp
  · intro s id hp
    constructor
    · intro ap; simp [stepApproval, hp]
    · simp [stepApproval, hp]

/-- Witness for C6: a pending approval receives two conflicting
decisions; only the first is recorded, and re-delivering a decision after
resolution leaves the state unchanged. -/
theorem c6_witness :
    outcomesFor "a1" (runApproval ⟨["a1"], []⟩
      [.decision "a1" true, .decision "a1" false]) = [("a1", true)] ∧
    (outcomesFor "a1" (runApproval ⟨["a1"], []⟩
      [.decision "a1" true, .decision "a1" false])).length ≤ 1 ∧
    stepApproval ⟨[], [("a1", true)]⟩ (.decision "a1" false) = ⟨[], [("a1", true)]⟩ := by
  have h := (c6_approval_resolved_once.1 ⟨["a1"], []⟩
    [.decision "a1" true, .decision "a1" false] "a1"
    (by decide) (by decide) (by decide))
  refine ⟨?_, h.2, ((c6_approval_resolved_once.2 ⟨[], [("a1", true)]⟩ "a1"
    (by decide)).1 false)⟩
  rw [h.1]
  decide

theorem runLoop_plan_empty_tolerated (opts : AgentToolsOptions) (orc : Oracles)
    (maxSteps step retries : Nat) (c : String) (rest : List PlanStep)
    (ts : ToolState) (hms : step < maxSteps) (hr : retries + 1 ≤ 2) :
    runLoop opts orc maxSteps step retries (.plan c [] :: rest) ts =
      ⟨(if 0 < step then [⟨.spacer, false⟩] else []) ++
        (if c ≠ "" then [⟨.commentary, false⟩] else []) ++
        (runLoop opts orc maxSteps step (retries + 1) rest ts).frags,
       (runLoop opts orc maxSteps step (retries + 1) rest ts).terminated,
       (runLoop opts orc maxSteps step (retries + 1) rest ts).consumed + 1,
       (runLoop opts orc maxSteps step (retries + 1) rest ts).finalState⟩ := by
  rw [runLoop, if_neg (Nat.not_le.mpr hms)]
  dsimp only
  rw [if_pos (List.isEmpty_nil : ([] : List ToolAction).isEmpty = true)]
  rw [if_neg (by omega : ¬ 2 < retries + 1)]

theorem runLoop_plan_empty_abort (opts : AgentToolsOptions) (orc : Oracles)
    (maxSteps step retries : Nat) (c : String) (rest : List PlanStep)
    (ts : ToolState) (hms : step < maxSteps) (hr : 2 < retries + 1) :
    runLoop opts orc maxSteps step retries (.plan c [] :: rest) ts =
      ⟨(if 0 < step then [⟨.spacer, false⟩] else []) ++
        (if c ≠ "" then [⟨.commentary, false⟩] else []) ++ [⟨.abortMsg, true⟩],
       true, 1, ts⟩ := by
  rw [runLoop, if_neg (Nat.not_le.mpr hms)]
  dsimp only
  rw [if_pos (List.isEmpty_nil : ([] : List ToolAction).isEmpty = true)]
  rw [if_pos hr]

/-- C2 counterexample: a planner returning an empty action list on two
consecutive steps does not abort the run — with a script of exactly two
empty plans the run is still live (no fragment emitted, no `done`), and
with three empty plans the controller performs a third planning call
(`consumed = 3`) before aborting. -/
theorem c2_counterexample :
    (runAgent opts0 orc0 12 [.plan "" [], .plan "" []] ts0).terminated = false ∧
    (runAgent opts0 orc0 12 [.plan "" [], .plan "" []] ts0).frags = [] ∧
    (runAgent opts0 orc0 12 [.plan "" [], .plan "" []] ts0).consumed = 2 ∧
    (runAgent opts0 orc0 12 [.plan "" [], .plan "" [], .plan "" []] ts0).consumed = 3 ∧
    (runAgent opts0 orc0 12 [.plan "" [], .plan "" [], .plan "" []] ts0).terminated
      = true := by
  refine ⟨?_, ?_, ?_, ?_, ?_⟩ <;> rfl

/-- C2 (amended): the run aborts after the *third* consecutive
empty-action step (`emptyActionRetries > 2`): on a script whose next
three planning calls return empty action lists the run terminates with
the abort fragment as its last emission and consumes exactly three
planning calls — a fourth never happens — while a step with a non-empty
action list makes the result independent of the incoming
consecutive-empty counter (it is reset to zero). -/
theorem c2_empty_actions_abort_after_third (opts : AgentToolsOptions) (orc : Oracles)
    (maxSteps step : Nat) (d1 d2 d3 : String) (rest : List PlanStep)
    (ts : ToolState) (hms : step < maxSteps) :
    ((runLoop opts orc maxSteps step 0
        (.plan d1 [] :: .plan d2 [] :: .plan d3 [] :: rest) ts).terminated = true ∧
     (runLoop opts orc maxSteps step 0
        (.plan d1 [] :: .plan d2 [] :: .plan d3 [] :: rest) ts).consumed = 3 ∧
     (runLoop opts orc maxSteps step 0
        (.plan d1 [] :: .plan d2 [] :: .plan d3 [] :: rest) ts).frags.getLast? =
       some ⟨.abortMsg, true⟩) ∧
    (∀ (r r' : Nat) (c : String) (a : ToolAction) (acts : List ToolAction)
        (rest2 : List PlanStep) (ts2 : ToolState),
      runLoop opts orc maxSteps step r (.plan c (a :: acts) :: rest2) ts2 =
      runLoop opts orc maxSteps step r' (.plan c (a :: acts) :: rest2) ts2) := by
  constructor
  · rw [runLoop_plan_empty_tolerated opts orc maxSteps step 0 d1 _ ts hms (by omega)]
    rw [runLoop_plan_empty_tolerated opts orc maxSteps step 1 d2 _ ts hms (by omega)]
    rw [runLoop_plan_empty_abort opts orc maxSteps step 2 d3 rest ts hms (by omega)]
    refine ⟨rfl, rfl, ?_⟩
    simp [List.getLast?_append]
  · intro r r' c a acts rest2 ts2
    rw [runLoop, runLoop]
    rfl

/-- Witness for C2's amended statement on a concrete three-empty script. -/
theorem c2_witness :
    ((runLoop opts0 orc0 12 0 0
        [.plan "" [], .plan "" [], .plan "" []] ts0).terminated = true ∧
     (runLoop opts0 orc0 12 0 0
        [.plan "" [], .plan "" [], .plan "" []] ts0).consumed = 3 ∧
     (runLoop opts0 orc0 12 0 0
        [.plan "" [], .plan "" [], .plan "" []] ts0).frags.getLast? =
       some ⟨.abortMsg, true⟩) ∧
    (runLoop opts0 orc0 12 0 5
        [.plan "diff" [.listFiles none none]] ts0 =
     runLoop opts0 orc0 12 0 0
        [.plan "diff" [.listFiles none none]] ts0) :=
  ⟨(c2_empty_actions_abort_after_third opts0 orc0 12 0 "" "" "" [] ts0
      (by decide)).1,
   (c2_empty_actions_abort_after_third opts0 orc0 12 0 "" "" "" [] ts0
      (by decide)).2 5 0 "diff" (.listFiles none none) [] [] ts0⟩

/-- Shape invariant behind C3: a terminated run's fragments are a
done-free prefix followed by exactly one `done` fragment; an unterminated
run has emitted no `done` fragment. -/
def DoneShape (out : RunOut) : Prop :=
  (out.terminated = true →
    ∃ pre d, out.frags = pre ++ [d] ∧ d.done = true ∧ ∀ f ∈ pre, f.done = false) ∧
  (out.terminated = false → ∀ f ∈ out.frags, f.done = false)

theorem mem_append_done (l1 l2 : List Frag) (h1 : ∀ f ∈ l1, f.done = false)
    (h2 : ∀ f ∈ l2, f.done = false) : ∀ f ∈ l1 ++ l2, f.done = false := by
  intro f hf
  rcases List.mem_append.mp hf with h | h
  · exact h1 f h
  · exact h2 f h

theorem frag_mem_spacer_done (step : Nat) :
    ∀ f ∈ (if 0 < step then [Frag.mk .spacer false] else []), f.done = false := by
  split <;> simp

theorem frag_mem_cfr_done (c : String) :
    ∀ f ∈ (if c ≠ "" then [Frag.mk .commentary false] else []), f.done = false := by
  split <;> simp

theorem frag_mem_single_done (k : FragKind) :
    ∀ f ∈ [Frag.mk k false], f.done = false := by
  simp

theorem runCmdFrags_done (rs : List ToolResult) :
    ∀ f ∈ runCmdFrags rs, f.done = false := by
  intro f hf
  rw [runCmdFrags] at hf
  obtain ⟨k, _, rfl⟩ := List.mem_map.mp hf
  rfl

theorem doneShape_terminal (pfx : List Frag) (hp : ∀ f ∈ pfx, f.done = false)
    (d : Frag) (hd : d.done = true) (cns : Nat) (ts : ToolState) :
    DoneShape ⟨pfx ++ [d], true, cns, ts⟩ := by
  constructor
  · intro _
    exact ⟨pfx, d, rfl, hd, hp⟩
  · intro h
    simp at h

theorem doneShape_prefix (pfx : List Frag) (hp : ∀ f ∈ pfx, f.done = false)
    (t : RunOut) (ht : DoneShape t) (cns : Nat) (fs : ToolState) :
    DoneShape ⟨pfx ++ t.frags, t.terminated, cns, fs⟩ := by
  constructor
  · intro h
    obtain ⟨pre, d, he, hd, hpre⟩ := ht.1 h
    refine ⟨pfx ++ pre, d, ?_, hd, mem_append_done pfx pre hp hpre⟩
    rw [he, List.append_assoc]
  · intro h
    exact mem_append_done pfx t.frags hp (ht.2 h)

theorem runLoop_done_shape (opts : AgentToolsOptions) (orc : Oracles)
    (maxSteps : Nat) : ∀ (script : List PlanStep) (step retries : Nat)
    (ts : ToolState), DoneShape (runLoop opts orc maxSteps step retries script ts) := by
  intro script
  induction script with
  | nil =>
    intro step retries ts
    rw [runLoop]
    by_cases hms : maxSteps ≤ step
    · rw [if_pos hms]
      exact doneShape_terminal [] (by simp) ⟨.maxStepsMsg, true⟩ rfl 0 ts
    · rw [if_neg hms]
      exact ⟨fun h => by simp at h, fun _ f hf => by simp at hf⟩
  | cons p rest ih =>
    intro step retries ts
    rw [runLoop]
    by_cases hms : maxSteps ≤ step
    · rw [if_pos hms]
      exact doneShape_terminal [] (by simp) ⟨.maxStepsMsg, true⟩ rfl 0 ts
    · rw [if_neg hms]
      dsimp only
      cases p with
      | noModel =>
        exact doneShape_terminal _ (frag_mem_spacer_done step) ⟨.noModelMsg, true⟩
          rfl 1 ts
      | unparseable =>
        exact doneShape_prefix _
          (mem_append_done _ _ (frag_mem_spacer_done step)
            (frag_mem_single_done .parseNote))
          (runLoop opts orc maxSteps step retries rest ts) (ih step retries ts) _ _
      | finalDone =>
        exact doneShape_terminal _ (frag_mem_spacer_done step) ⟨.finalSummary, true⟩
          rfl 1 ts
      | plan c actions =>
        dsimp only
        cases actions with
        | nil =>
          rw [if_pos (List.isEmpty_nil : ([] : List ToolAction).isEmpty = true)]
          by_cases hr : 2 < retries + 1
          · rw [if_pos hr]
            exact doneShape_terminal _
              (mem_append_done _ _ (frag_mem_spacer_done step)
                (frag_mem_cfr_done c)) ⟨.abortMsg, true⟩ rfl 1 ts
          · rw [if_neg hr]
            exact doneShape_prefix _
              (mem_append_done _ _ (frag_mem_spacer_done step)
                (frag_mem_cfr_done c))
              (runLoop opts orc maxSteps step (retries + 1) rest ts)
              (ih step (retries + 1) ts) _ _
        | cons a acts =>
          rw [if_neg (by simp : ¬ (a :: acts).isEmpty = true)]
          exact doneShape_prefix _
            (mem_append_done _ _
              (mem_append_done _ _
                (mem_append_done _ _
                  (mem_append_done _ _ (frag_mem_spacer_done step)
                    (frag_mem_cfr_done c))
                  (frag_mem_single_done .actionSummary))
                (runCmdFrags_done (execute opts orc (a :: acts) ts).1))
              (frag_mem_single_done .resultsSummary))
            (runLoop opts orc maxSteps (step + 1) 0 rest
              (execute opts orc (a :: acts) ts).2)
            (ih (step + 1) 0 (execute opts orc (a :: acts) ts).2) _ _

/-- C3: for every terminating run of the controller (success, no-model
failure, repeated-empty abort, or max-steps exhaustion), the emitted
fragment sequence for the run's correlation id contains exactly one
fragment with `done = true`, and that fragment is the last one emitted. -/
theorem c3_exactly_one_done_and_last (opts : AgentToolsOptions) (orc : Oracles)
    (maxSteps : Nat) (script : List PlanStep) (ts : ToolState)
    (h : (runAgent opts orc maxSteps script ts).terminated = true) :
    ((runAgent opts orc maxSteps script ts).frags.filter
      (fun f => f.done)).length = 1 ∧
    ∃ d, (runAgent opts orc maxSteps script ts).frags.getLast? = some d ∧
      d.done = true := by
  obtain ⟨pre, d, he, hd, hp⟩ :=
    (runLoop_done_shape opts orc maxSteps script 0 0 ts).1 h
  rw [show runAgent opts orc maxSteps script ts =
    runLoop opts orc maxSteps 0 0 script ts from rfl]
  rw [he]
  constructor
  · rw [List.filter_append]
    have hnil : pre.filter (fun f => f.done) = [] := by
      rw [List.filter_eq_nil_iff]
      intro f hf
      simp [hp f hf]
    rw [hnil]
    simp [hd]
  · exact ⟨d, by simp, hd⟩

/-- Witness for C3: a script whose first reply is the final summary. -/
theorem c3_witness :
    ((runAgent opts0 orc0 12 [.finalDone] ts0).frags.filter
      (fun f => f.done)).length = 1 ∧
    ∃ d, (runAgent opts0 orc0 12 [.finalDone] ts0).frags.getLast? = some d ∧
      d.done = true :=
  c3_exactly_one_done_and_last opts0 orc0 12 [.finalDone] ts0 rfl

theorem lookup_map_set {α : Type} (k : String) (v : α) :
    ∀ m : List (String × α), (List.lookup k m).isSome = true →
      List.lookup k (m.map (fun e => if e.1 == k then (k, v) else e)) = some v := by
  intro m
  induction m with
  | nil => intro h; simp [List.lookup] at h
  | cons e t ih =>
    intro h
    obtain ⟨k0, v0⟩ := e
    by_cases hk : k0 = k
    · subst hk
      have hself : ((k0, v0).1 == k0) = true := by simp
      simp only [List.map_cons, hself, if_true]
      simp [List.lookup]
    · have hk1 : ((k0, v0).1 == k) = false := by
        simp [hk]
      have hk2 : (k == k0) = false := by
        simp
        exact fun hh => hk hh.symm
      simp only [List.map_cons, hk1, if_false, Bool.false_eq_true]
      simp only [List.lookup, hk2] at h ⊢
      exact ih h

theorem lookup_append_right {α : Type} (k : String) (v : α) :
    ∀ m : List (String × α), List.lookup k m = none →
      List.lookup k (m ++ [(k, v)]) = some v := by
  intro m
  induction m with
  | nil => intro _; simp [List.lookup]
  | cons e t ih =>
    intro h
    obtain ⟨k0, v0⟩ := e
    by_cases hk : k = k0
    · subst hk
      simp [List.lookup] at h
    · have hk2 : (k == k0) = false := by simp [hk]
      simp only [List.lookup, hk2] at h
      simp only [List.cons_append, List.lookup, hk2]
      exact ih h

theorem lookup_setAssoc_self {α : Type} (m : List (String × α)) (k : String)
    (v : α) : List.lookup k (setAssoc m k v) = some v := by
  unfold setAssoc
  by_cases hm : (List.lookup k m).isSome
  · rw [if_pos hm]
    exact lookup_map_set k v m hm
  · rw [if_neg hm]
    exact lookup_append_right k v m (Option.not_isSome_iff_eq_none.mp hm)

theorem lookup_eraseAssoc_self {α : Type} (m : List (String × α)) (k : String) :
    List.lookup k (eraseAssoc m k) = none := by
  unfold eraseAssoc
  induction m with
  | nil => rfl
  | cons e t ih =>
    obtain ⟨k0, v0⟩ := e
    by_cases hk : k0 = k
    · have hpred : (decide ¬(k0, v0).1 = k) = false := by simp [hk]
      simp only [List.filter_cons, hpred, Bool.false_eq_true, if_false]
      exact ih
    · have hpred : (decide ¬(k0, v0).1 = k) = true := by simp [hk]
      have hk2 : (k == k0) = false := by
        simp
        exact fun hh => hk hh.symm
      simp only [List.filter_cons, hpred, if_true]
      simp only [List.lookup, hk2]
      exact ih

/-- C9 counterexample: an outbound `done` event with empty fragment text
(as the proxy emits to close a stream) reaches the router before any
session mapping with two sessions registered; it is buffered with
`done = true` and no fragments, and flushing it on the matching inbound
appends no aggregated final entry at all — the claim's aggregated entry
(the concatenation, here empty) is not appended. -/
theorem c9_counterexample :
    (onOutbound ⟨[("s1", []), ("s2", [])], [], []⟩
        ⟨"r1", "", true, none⟩).pendingOutboundBuffers =
      [("r1", ⟨[], none, true⟩)] ∧
    (onInbound (onOutbound ⟨[("s1", []), ("s2", [])], [], []⟩
        ⟨"r1", "", true, none⟩) ⟨"r1", "goal", some "s1"⟩).sessions =
      [("s1", [.inboundMsg "r1" "goal"]), ("s2", [])] ∧
    (onInbound (onOutbound ⟨[("s1", []), ("s2", [])], [], []⟩
        ⟨"r1", "", true, none⟩)
        ⟨"r1", "goal", some "s1"⟩).pendingOutboundBuffers = [] := by
  refine ⟨?_, ?_, ?_⟩ <;> rfl

/-- C9 (amended): an outbound fragment whose correlation id cannot be
attributed (no index entry, no session log contains the id, and not
exactly one session) is buffered keyed by the id, in arrival order, with
the session logs untouched; when the matching inbound message later
establishes the session, the buffered fragments are flushed into that
session's log in original order right after the inbound entry, the
buffer is discarded, and — provided the buffer was marked done and holds
at least one fragment (buffered fragment text is necessarily nonempty) —
an aggregated final entry equal to the concatenation of the buffered
fragment text is appended after the individual entries. -/
theorem c9_buffer_and_flush (s : ServerState) :
    (∀ frag : OutboundFragment,
      List.lookup frag.id s.messageSessionIndex = none →
      s.sessions.find? (fun e => e.2.any (fun m => m.entryId == frag.id)) = none →
      s.sessions.length ≠ 1 →
      frag.fragment ≠ "" →
      (onOutbound s frag).sessions = s.sessions ∧
      List.lookup frag.id (onOutbound s frag).pendingOutboundBuffers =
        some ⟨((List.lookup frag.id s.pendingOutboundBuffers).getD
                 ⟨[], frag.modelName, false⟩).fragments ++ [frag.fragment],
              ((List.lookup frag.id s.pendingOutboundBuffers).getD
                 ⟨[], frag.modelName, false⟩).modelName,
              (((List.lookup frag.id s.pendingOutboundBuffers).getD
                 ⟨[], frag.modelName, false⟩).done || frag.done)⟩) ∧
    (∀ (msg : InboundMessage) (sid : String) (buf : PendingBuf),
      msg.sessionId = some sid →
      List.lookup msg.id s.pendingOutboundBuffers = some buf →
      List.lookup sid (onInbound s msg).sessions = some
        ((List.lookup sid s.sessions).getD [] ++ [.inboundMsg msg.id msg.text] ++
          buf.fragments.map
            (fun f => LogEntry.outboundMsg msg.id f buf.modelName false false) ++
          (if buf.done = true ∧ String.join buf.fragments ≠ "" then
            [LogEntry.outboundMsg msg.id (String.join buf.fragments)
              buf.modelName true true]
           else [])) ∧
      List.lookup msg.id (onInbound s msg).pendingOutboundBuffers = none) := by
  constructor
  · intro frag hidx hscan hlen hfrag
    have hres : resolveSession s frag.id = (none, s) := by
      unfold resolveSession
      rw [hidx, hscan]
      rw [if_neg (by simpa using hlen)]
    constructor
    · unfold onOutbound
      rw [hres]
    · unfold onOutbound
      rw [hres]
      dsimp only
      rw [if_pos hfrag]
      exact lookup_setAssoc_self _ _ _
  · intro msg sid buf hsid hbuf
    unfold onInbound
    rw [hsid]
    dsimp only
    by_cases hex : (List.lookup sid s.sessions).isNone
    · rw [if_pos hex]
      have hl1 : List.lookup sid (setAssoc s.sessions sid ([] : List LogEntry)) =
          some [] := lookup_setAssoc_self _ _ _
      rw [hl1]
      dsimp only
      rw [hbuf]
      dsimp only
      have hget : List.lookup sid s.sessions = none :=
        Option.isNone_iff_eq_none.mp hex
      rw [hget]
      constructor
      · rw [lookup_setAssoc_self]
        by_cases hd : buf.done = true
        · by_cases hfull : String.join buf.fragments ≠ ""
          · rw [if_pos hd, if_pos hfull, if_pos ⟨hd, hfull⟩]
            rfl
          · rw [if_pos hd, if_neg hfull, if_neg (fun hc => hfull hc.2)]
            simp
        · rw [if_neg hd, if_neg (fun hc => hd hc.1)]
          simp
      · exact lookup_eraseAssoc_self _ _
    · rw [if_neg hex]
      have hne : List.lookup sid s.sessions ≠ none := fun hc => hex (by rw [hc]; rfl)
      obtain ⟨lg, hlg⟩ := Option.ne_none_iff_exists'.mp hne
      rw [hlg]
      rw [hbuf]
      constructor
      · rw [lookup_setAssoc_self]
        by_cases hd : buf.done = true
        · by_cases hfull : String.join buf.fragments ≠ ""
          · rw [if_pos hd, if_pos hfull, if_pos ⟨hd, hfull⟩]
          · rw [if_pos hd, if_neg hfull, if_neg (fun hc => hfull hc.2)]
            simp
        · rw [if_neg hd, if_neg (fun hc => hd hc.1)]
          simp
      · exact lookup_eraseAssoc_self _ _

/-- Fixture router state holding one done-marked two-fragment buffer for
correlation id r1, with two known sessions. -/
def sFlush : ServerState :=
  ⟨[("s1", []), ("s2", [])], [], [("r1", ⟨["hello ", "world"], none, true⟩)]⟩

/-- Witness for C9's amended statement at a concrete unattributable
fragment followed by its inbound message. -/
theorem c9_witness :
    ((onOutbound ⟨[("s1", []), ("s2", [])], [], []⟩
        ⟨"r1", "hello ", false, none⟩).sessions = [("s1", []), ("s2", [])] ∧
     List.lookup "r1" (onOutbound ⟨[("s1", []), ("s2", [])], [], []⟩
        ⟨"r1", "hello ", false, none⟩).pendingOutboundBuffers =
       some ⟨["hello "], none, false⟩) ∧
    (List.lookup "s1" (onInbound sFlush ⟨"r1", "goal", some "s1"⟩).sessions =
      some ([LogEntry.inboundMsg "r1" "goal",
        .outboundMsg "r1" "hello " none false false,
        .outboundMsg "r1" "world" none false false,
        .outboundMsg "r1" "hello world" none true true]) ∧
     List.lookup "r1" (onInbound sFlush
       ⟨"r1", "goal", some "s1"⟩).pendingOutboundBuffers = none) := by
  constructor
  · have h := (c9_buffer_and_flush ⟨[("s1", []), ("s2", [])], [], []⟩).1
      ⟨"r1", "hello ", false, none⟩ rfl rfl (by decide) (by decide)
    exact ⟨h.1, h.2⟩
  · have h := (c9_buffer_and_flush sFlush).2 ⟨"r1", "goal", some "s1"⟩ "s1"
      ⟨["hello ", "world"], none, true⟩ rfl rfl
    refine ⟨?_, h.2⟩
    have := h.1
    rw [this]
    rfl

/-- C8: the edit-preview diff aligns the old and new line sequences by a
longest common subsequence: the number of changed (removed plus added)
lines satisfies `changed + 2·lcs = m + n`, which is minimal over all
common-subsequence alignments; and at a mismatch where advancing through
the old side or the new side preserves an equal remaining LCS length
(`dp[i+1][j] = dp[i][j+1]`), the walk advances through the old side
first (the next emitted line is the removed old head). -/
theorem c8_diff_lcs_minimal (oldStr newStr : String) :
    changedCount (buildUnifiedDiffOps oldStr newStr) +
      2 * lcsLen (splitLines oldStr) (splitLines newStr) =
      (splitLines oldStr).length + (splitLines newStr).length ∧
    (∀ s : List String, s.Sublist (splitLines oldStr) →
      s.Sublist (splitLines newStr) →
      changedCount (buildUnifiedDiffOps oldStr newStr) ≤
        ((splitLines oldStr).length - s.length) +
        ((splitLines newStr).length - s.length)) ∧
    (∀ (a b : String) (as bs : List String), a ≠ b →
      lcsLen as (b :: bs) = lcsLen (a :: as) bs →
      ∃ rest, diffWalk (a :: as) (b :: bs) = DiffOp.remove a :: rest) := by
  refine ⟨diffWalk_changed _ _, fun s hso hsn => ?_, fun a b as bs hab htie => ?_⟩
  · have h1 := lcs_is_max ((splitLines oldStr).length + (splitLines newStr).length)
      (splitLines oldStr) (splitLines newStr) s le_rfl hso hsn
    have h2 := hso.length_le
    have h3 := hsn.length_le
    have h4 := diffWalk_changed (splitLines oldStr) (splitLines newStr)
    unfold buildUnifiedDiffOps
    omega
  · have hle : lcsLen (a :: as) bs ≤ lcsLen as (b :: bs) := le_of_eq htie.symm
    have hh : hunkInner (a :: as) (b :: bs) =
        ⟨a :: (hunkInner as (b :: bs)).oldBuf, (hunkInner as (b :: bs)).newBuf,
         (hunkInner as (b :: bs)).restOld, (hunkInner as (b :: bs)).restNew⟩ := by
      rw [hunkInner, if_neg hab, if_pos hle]
    refine ⟨((hunkInner as (b :: bs)).oldBuf ++
        (drainOld (hunkInner as (b :: bs)).restOld
          (hunkInner as (b :: bs)).restNew).1).map DiffOp.remove ++
      ((hunkInner as (b :: bs)).newBuf ++
        (drainNew (drainOld (hunkInner as (b :: bs)).restOld
            (hunkInner as (b :: bs)).restNew).2
          (hunkInner as (b :: bs)).restNew).1).map DiffOp.add ++
      diffWalk (drainOld (hunkInner as (b :: bs)).restOld
          (hunkInner as (b :: bs)).restNew).2
        (drainNew (drainOld (hunkInner as (b :: bs)).restOld
            (hunkInner as (b :: bs)).restNew).2
          (hunkInner as (b :: bs)).restNew).2, ?_⟩
    rw [diffWalk, if_neg hab, hh]
    simp only [List.map_cons, List.cons_append]

/-- Witness for C8 at concrete one-line contents, with the empty common
subsequence and a concrete LCS tie. -/
theorem c8_witness :
    changedCount (buildUnifiedDiffOps "alpha" "beta") +
      2 * lcsLen (splitLines "alpha") (splitLines "beta") =
      (splitLines "alpha").length + (splitLines "beta").length ∧
    changedCount (buildUnifiedDiffOps "alpha" "beta") ≤
      ((splitLines "alpha").length - ([] : List String).length) +
      ((splitLines "beta").length - ([] : List String).length) ∧
    ∃ rest, diffWalk ["x"] ["y"] = DiffOp.remove "x" :: rest :=
  ⟨(c8_diff_lcs_minimal "alpha" "beta").1,
   (c8_diff_lcs_minimal "alpha" "beta").2.1 []
     (List.nil_sublist _) (List.nil_sublist _),
   (c8_diff_lcs_minimal "alpha" "beta").2.2 "x" "y" [] []
     (by decide) (by rw [lcs_nil_left, lcs_nil_right])⟩

end CopilotAnywhere
